import Mathlib

/-!
Shallow embedding of `src/hex-literal/src/comments.rs`: an
`Iterator<Item = u8>` decorator that excludes `//` line comments from a
byte stream in a single forward pass.  Bytes are modelled as `Nat`
(`47 = '/'`, `10 = newline`); the wrapped iterator is the list of bytes
not yet pulled.
-/

namespace Comments

/-- The `State` enum of the source file: `Char`,
`PotentialLineComment(Option<u8>)` and `LineComment`. -/
inductive State where
  | Char : State
  | PotentialLineComment : Option Nat → State
  | LineComment : State
deriving DecidableEq

/-- The `ExcludingComments` iterator decorator: the machine state, the
one-byte replay buffer, and the remaining bytes of the wrapped iterator. -/
structure ExcludingComments where
  state : State
  buffer : Option Nat
  iter : List Nat
deriving DecidableEq

/-- One evaluation of `self.buffer.take().or_else(|| self.iter.next())`:
the byte obtained (replay buffer first, else the source) together with the
configuration after taking it; `none` when both are empty. -/
def ExcludingComments.nextByte (s : ExcludingComments) : Option (Nat × ExcludingComments) :=
  match s.buffer with
  | some b => some (b, ⟨s.state, none, s.iter⟩)
  | none =>
    match s.iter with
    | [] => none
    | b :: rest => some (b, ⟨s.state, none, rest⟩)

/-- Number of bytes not yet consumed: the replay slot plus the remaining
source. -/
def ExcludingComments.size (s : ExcludingComments) : Nat :=
  s.buffer.toList.length + s.iter.length

theorem nextByte_size (s : ExcludingComments) (b : Nat) (s1 : ExcludingComments)
    (h : s.nextByte = some (b, s1)) : s1.size + 1 = s.size := by
  cases s with
  | mk st buf it =>
    cases buf with
    | some c =>
      simp [ExcludingComments.nextByte] at h
      cases h.2
      simp [ExcludingComments.size]
      omega
    | none =>
      cases it with
      | nil => simp [ExcludingComments.nextByte] at h
      | cons c rest =>
        simp [ExcludingComments.nextByte] at h
        cases h.2
        simp [ExcludingComments.size]

/-- `Iterator::next` of `ExcludingComments`: the emitted byte (`none` at
end of sequence) together with the configuration after the pull.  The
internal `loop` of the source is the recursion. -/
def ExcludingComments.next (s : ExcludingComments) : Option Nat × ExcludingComments :=
  match h : s.nextByte with
  | none => (none, s)
  | some (b, s1) =>
    match s1.state with
    | State.Char =>
      if b = 47 then
        ExcludingComments.next ⟨State.PotentialLineComment (some b), s1.buffer, s1.iter⟩
      else (some b, s1)
    | State.PotentialLineComment firstSlash =>
      if b = 47 then
        ExcludingComments.next ⟨State.LineComment, s1.buffer, s1.iter⟩
      else (firstSlash, ⟨State.Char, some b, s1.iter⟩)
    | State.LineComment =>
      if b = 10 then (some b, ⟨State.Char, s1.buffer, s1.iter⟩)
      else ExcludingComments.next s1
termination_by s.size
decreasing_by
  all_goals
    have h2 := nextByte_size _ _ _ h
    simp [ExcludingComments.size] at h2 ⊢
    omega

theorem nextByte_state (s : ExcludingComments) (b : Nat) (s1 : ExcludingComments)
    (h : s.nextByte = some (b, s1)) : s1.state = s.state := by
  cases s with
  | mk st buf it =>
    cases buf with
    | some c =>
      simp [ExcludingComments.nextByte] at h
      cases h.2
      rfl
    | none =>
      cases it with
      | nil => simp [ExcludingComments.nextByte] at h
      | cons c rest =>
        simp [ExcludingComments.nextByte] at h
        cases h.2
        rfl

theorem nextByte_buffer (s : ExcludingComments) (b : Nat) (s1 : ExcludingComments)
    (h : s.nextByte = some (b, s1)) : s1.buffer = none := by
  cases s with
  | mk st buf it =>
    cases buf with
    | some c =>
      simp [ExcludingComments.nextByte] at h
      cases h.2
      rfl
    | none =>
      cases it with
      | nil => simp [ExcludingComments.nextByte] at h
      | cons c rest =>
        simp [ExcludingComments.nextByte] at h
        cases h.2
        rfl

/-! Unfolding equations of `next` for each shape of configuration. -/

theorem next_empty (st : State) :
    ExcludingComments.next ⟨st, none, []⟩ = (none, ⟨st, none, []⟩) := by
  rw [ExcludingComments.next]
  simp [ExcludingComments.nextByte]

theorem next_char_cons (b : Nat) (r : List Nat) :
    ExcludingComments.next ⟨State.Char, none, b :: r⟩ =
      if b = 47 then ExcludingComments.next ⟨State.PotentialLineComment (some b), none, r⟩
      else (some b, ⟨State.Char, none, r⟩) := by
  rw [ExcludingComments.next]
  simp [ExcludingComments.nextByte]

theorem next_pending_cons (fs : Option Nat) (b : Nat) (r : List Nat) :
    ExcludingComments.next ⟨State.PotentialLineComment fs, none, b :: r⟩ =
      if b = 47 then ExcludingComments.next ⟨State.LineComment, none, r⟩
      else (fs, ⟨State.Char, some b, r⟩) := by
  rw [ExcludingComments.next]
  simp [ExcludingComments.nextByte]

theorem next_lc_cons (b : Nat) (r : List Nat) :
    ExcludingComments.next ⟨State.LineComment, none, b :: r⟩ =
      if b = 10 then (some b, ⟨State.Char, none, r⟩)
      else ExcludingComments.next ⟨State.LineComment, none, r⟩ := by
  rw [ExcludingComments.next]
  simp [ExcludingComments.nextByte]

theorem next_char_buf (c : Nat) (it : List Nat) :
    ExcludingComments.next ⟨State.Char, some c, it⟩ =
      if c = 47 then ExcludingComments.next ⟨State.PotentialLineComment (some c), none, it⟩
      else (some c, ⟨State.Char, none, it⟩) := by
  rw [ExcludingComments.next]
  simp [ExcludingComments.nextByte]

/-- Rank used to order configurations: a pending slash counts for one
extra half-step. -/
def stateRank : State → Nat
  | State.PotentialLineComment _ => 1
  | _ => 0

/-! Conditional unfolding of `next`, driven by the `nextByte` result. -/

theorem next_of_none (s : ExcludingComments) (h : s.nextByte = none) :
    s.next = (none, s) := by
  rw [ExcludingComments.next]
  split
  · rfl
  · next b s1 heq => rw [h] at heq; cases heq

theorem next_of_char (s : ExcludingComments) (b : Nat) (s1 : ExcludingComments)
    (h : s.nextByte = some (b, s1)) (hst : s1.state = State.Char) :
    s.next = if b = 47 then
        ExcludingComments.next ⟨State.PotentialLineComment (some b), s1.buffer, s1.iter⟩
      else (some b, s1) := by
  rw [ExcludingComments.next]
  split
  · next heq => rw [h] at heq; cases heq
  · next b' s1' heq =>
      rw [h] at heq
      cases heq
      rw [hst]

theorem next_of_pending (s : ExcludingComments) (b : Nat) (s1 : ExcludingComments)
    (fs : Option Nat) (h : s.nextByte = some (b, s1))
    (hst : s1.state = State.PotentialLineComment fs) :
    s.next = if b = 47 then
        ExcludingComments.next ⟨State.LineComment, s1.buffer, s1.iter⟩
      else (fs, ⟨State.Char, some b, s1.iter⟩) := by
  rw [ExcludingComments.next]
  split
  · next heq => rw [h] at heq; cases heq
  · next b' s1' heq =>
      rw [h] at heq
      cases heq
      rw [hst]

theorem next_of_lc (s : ExcludingComments) (b : Nat) (s1 : ExcludingComments)
    (h : s.nextByte = some (b, s1)) (hst : s1.state = State.LineComment) :
    s.next = if b = 10 then (some b, ⟨State.Char, s1.buffer, s1.iter⟩) else s1.next := by
  rw [ExcludingComments.next]
  split
  · next heq => rw [h] at heq; cases heq
  · next b' s1' heq =>
      rw [h] at heq
      cases heq
      rw [hst]

theorem next_some_size (s : ExcludingComments) (b : Nat) (s' : ExcludingComments)
    (h : s.next = (some b, s')) :
    2 * s'.size + stateRank s'.state < 2 * s.size + stateRank s.state := by
  induction s using ExcludingComments.next.induct generalizing b s' with
  | case1 x hnb =>
    rw [next_of_none _ hnb] at h
    simp [Prod.ext_iff] at h
  | case2 x s1 hst hnb ih =>
    rw [next_of_char _ _ _ hnb hst] at h
    simp at h
    have h1 := nextByte_size _ _ _ hnb
    have h2 := nextByte_buffer _ _ _ hnb
    have h3 := ih _ _ h
    simp [ExcludingComments.size, h2, stateRank] at h3 h1 ⊢
    omega
  | case3 x b0 s1 hnb hst hne =>
    rw [next_of_char _ _ _ hnb hst] at h
    simp [hne, Prod.ext_iff] at h
    cases h.1
    cases h.2
    have h1 := nextByte_size _ _ _ hnb
    simp [hst, stateRank]
    omega
  | case4 x s1 fs hst hnb ih =>
    rw [next_of_pending _ _ _ _ hnb hst] at h
    simp at h
    have h1 := nextByte_size _ _ _ hnb
    have h2 := nextByte_buffer _ _ _ hnb
    have h3 := ih _ _ h
    simp [ExcludingComments.size, h2, stateRank] at h3 h1 ⊢
    omega
  | case5 x b0 s1 hnb fs hst hne =>
    rw [next_of_pending _ _ _ _ hnb hst] at h
    simp [hne, Prod.ext_iff] at h
    cases h.2
    have h1 := nextByte_size _ _ _ hnb
    have h2 := nextByte_buffer _ _ _ hnb
    have h4 := nextByte_state _ _ _ hnb
    rw [hst] at h4
    simp [ExcludingComments.size, h2, stateRank, ← h4] at h1 ⊢
    omega
  | case6 x s1 hst hnb =>
    rw [next_of_lc _ _ _ hnb hst] at h
    simp [Prod.ext_iff] at h
    cases h.1
    cases h.2
    have h1 := nextByte_size _ _ _ hnb
    have h2 := nextByte_buffer _ _ _ hnb
    simp [ExcludingComments.size, stateRank, h2] at h1 ⊢
    omega
  | case7 x b0 s1 hnb hst hne ih =>
    rw [next_of_lc _ _ _ hnb hst] at h
    simp [hne] at h
    have h1 := nextByte_size _ _ _ hnb
    have h3 := ih _ _ h
    simp [hst, stateRank] at h3 ⊢
    omega

/-- Pull `next` repeatedly until end of sequence, collecting the emitted
bytes: the observable output of the whole iterator. -/
def ExcludingComments.run (s : ExcludingComments) : List Nat :=
  match h : s.next with
  | (none, _) => []
  | (some b, s') => b :: ExcludingComments.run s'
termination_by 2 * s.size + stateRank s.state
decreasing_by exact next_some_size _ _ _ h

/-- `new_from_iter`: initial configuration, state `Char`, empty buffer. -/
def new_from_iter (l : List Nat) : ExcludingComments := ⟨State.Char, none, l⟩

/-- Whole-sequence behaviour of the decorator: collect every byte produced
by repeated pulls starting from `new_from_iter`.  This is what the
`exclude_comments` test helper of the source observes. -/
def exclude_comments (l : List Nat) : List Nat :=
  ExcludingComments.run (new_from_iter l)

/-- Structural restatement of the machine as a list function, used to
reason about (and compute) `run`; `run_eq_processList` proves agreement. -/
def processList : State → List Nat → List Nat
  | _, [] => []
  | State.Char, b :: rest =>
    if b = 47 then processList (State.PotentialLineComment (some b)) rest
    else b :: processList State.Char rest
  | State.PotentialLineComment fs, b :: rest =>
    if b = 47 then processList State.LineComment rest
    else
      match fs with
      | some c => c :: b :: processList State.Char rest
      | none => []
  | State.LineComment, b :: rest =>
    if b = 10 then b :: processList State.Char rest
    else processList State.LineComment rest

theorem run_of_none (s t : ExcludingComments) (h : s.next = (none, t)) :
    s.run = [] := by
  rw [ExcludingComments.run]
  split
  · rfl
  · next b s' heq => rw [h] at heq; cases heq

theorem run_of_some (s : ExcludingComments) (b : Nat) (s' : ExcludingComments)
    (h : s.next = (some b, s')) : s.run = b :: s'.run := by
  rw [ExcludingComments.run]
  split
  · next heq => rw [h] at heq; cases heq
  · next b' t heq =>
      rw [h] at heq
      cases heq
      rfl

theorem run_congr (s t : ExcludingComments) (h : s.next = t.next) :
    s.run = t.run := by
  rcases hn : t.next with ⟨o, u⟩
  cases o with
  | none => rw [run_of_none _ _ (h.trans hn), run_of_none _ _ hn]
  | some b => rw [run_of_some _ _ _ (h.trans hn), run_of_some _ _ _ hn]

theorem run_eq_processList (l : List Nat) (st : State) :
    ExcludingComments.run ⟨st, none, l⟩ = processList st l := by
  induction l generalizing st with
  | nil =>
    rw [run_of_none _ _ (next_empty st)]
    cases st <;> rfl
  | cons b rest ih =>
    cases st with
    | Char =>
      by_cases hb : b = 47
      · subst hb
        have hnx : ExcludingComments.next ⟨State.Char, none, 47 :: rest⟩ =
            ExcludingComments.next ⟨State.PotentialLineComment (some 47), none, rest⟩ := by
          rw [next_char_cons]; simp
        rw [run_congr _ _ hnx, ih]
        simp [processList]
      · have hnx : ExcludingComments.next ⟨State.Char, none, b :: rest⟩ =
            (some b, ⟨State.Char, none, rest⟩) := by
          rw [next_char_cons]; simp [hb]
        rw [run_of_some _ _ _ hnx, ih]
        simp [processList, hb]
    | PotentialLineComment fs =>
      by_cases hb : b = 47
      · subst hb
        have hnx : ExcludingComments.next ⟨State.PotentialLineComment fs, none, 47 :: rest⟩ =
            ExcludingComments.next ⟨State.LineComment, none, rest⟩ := by
          rw [next_pending_cons]; simp
        rw [run_congr _ _ hnx, ih]
        simp [processList]
      · cases fs with
        | none =>
          have hnx : ExcludingComments.next ⟨State.PotentialLineComment none, none, b :: rest⟩ =
              (none, ⟨State.Char, some b, rest⟩) := by
            rw [next_pending_cons]; simp [hb]
          rw [run_of_none _ _ hnx]
          simp [processList, hb]
        | some c =>
          have hnx : ExcludingComments.next
              ⟨State.PotentialLineComment (some c), none, b :: rest⟩ =
              (some c, ⟨State.Char, some b, rest⟩) := by
            rw [next_pending_cons]; simp [hb]
          have hnx2 : ExcludingComments.next ⟨State.Char, some b, rest⟩ =
              (some b, ⟨State.Char, none, rest⟩) := by
            rw [next_char_buf]; simp [hb]
          rw [run_of_some _ _ _ hnx, run_of_some _ _ _ hnx2, ih]
          simp [processList, hb]
    | LineComment =>
      by_cases hb : b = 10
      · subst hb
        have hnx : ExcludingComments.next ⟨State.LineComment, none, 10 :: rest⟩ =
            (some 10, ⟨State.Char, none, rest⟩) := by
          rw [next_lc_cons]; simp
        rw [run_of_some _ _ _ hnx, ih]
        simp [processList]
      · have hnx : ExcludingComments.next ⟨State.LineComment, none, b :: rest⟩ =
            ExcludingComments.next ⟨State.LineComment, none, rest⟩ := by
          rw [next_lc_cons]; simp [hb]
        rw [run_congr _ _ hnx, ih]
        simp [processList, hb]

theorem exclude_comments_eq (l : List Nat) :
    exclude_comments l = processList State.Char l :=
  run_eq_processList l State.Char

example : exclude_comments [97, 47, 47, 99, 100] = [97] := by
  rw [exclude_comments_eq]; decide

example : exclude_comments [97, 98, 47, 99, 100] = [97, 98, 47, 99, 100] := by
  rw [exclude_comments_eq]; decide

example : exclude_comments [97, 47] = [97] := by
  rw [exclude_comments_eq]; decide

example : exclude_comments [97, 98, 47, 47, 99, 10, 100, 101] = [97, 98, 10, 100, 101] := by
  rw [exclude_comments_eq]; decide

/-- Written from the spec sentence of §4.1, for comparison with the code:
`false` is outside a comment, `true` inside one.  Every maximal run
starting at a `//` opener and extending up to (but not including) the next
newline is removed; the newline is preserved; everything else is kept. -/
def specFilter : Bool → List Nat → List Nat
  | _, [] => []
  | false, 47 :: 47 :: rest => specFilter true rest
  | false, b :: rest => b :: specFilter false rest
  | true, 10 :: rest => 10 :: specFilter false rest
  | true, _ :: rest => specFilter true rest

/-- The spec-side description of the whole filter: the input with every
line comment removed and nothing else touched. -/
def specRemoveComments (l : List Nat) : List Nat := specFilter false l

example : specRemoveComments [97, 98, 47, 47, 99, 100] = [97, 98] := by decide

example : specRemoveComments [97, 47] = [97, 47] := by decide

example : specRemoveComments [97, 98, 47, 47, 99, 10, 100] = [97, 98, 10, 100] := by decide

theorem processList_char_slash (rest : List Nat) :
    processList State.Char (47 :: rest) =
      processList (State.PotentialLineComment (some 47)) rest := by
  simp [processList]

theorem processList_char_other (b : Nat) (rest : List Nat) (hb : b ≠ 47) :
    processList State.Char (b :: rest) = b :: processList State.Char rest := by
  simp [processList, hb]

theorem processList_pending_slash (fs : Option Nat) (rest : List Nat) :
    processList (State.PotentialLineComment fs) (47 :: rest) =
      processList State.LineComment rest := by
  simp [processList]

theorem processList_pending_other (c b : Nat) (rest : List Nat) (hb : b ≠ 47) :
    processList (State.PotentialLineComment (some c)) (b :: rest) =
      c :: b :: processList State.Char rest := by
  simp [processList, hb]

theorem processList_pending_none (b : Nat) (rest : List Nat) (hb : b ≠ 47) :
    processList (State.PotentialLineComment none) (b :: rest) = [] := by
  simp [processList, hb]

theorem processList_lc_nl (rest : List Nat) :
    processList State.LineComment (10 :: rest) = 10 :: processList State.Char rest := by
  simp [processList]

theorem processList_lc_other (b : Nat) (rest : List Nat) (hb : b ≠ 10) :
    processList State.LineComment (b :: rest) = processList State.LineComment rest := by
  simp [processList, hb]

theorem processList_no_slash (l : List Nat) (h : ∀ b ∈ l, b ≠ 47) :
    processList State.Char l = l := by
  induction l with
  | nil => rfl
  | cons b rest ih =>
    have hb : b ≠ 47 := h b (List.mem_cons_self b rest)
    simp [processList, hb]
    exact ih fun c hc => h c (List.mem_cons_of_mem b hc)

theorem processList_length (l : List Nat) : ∀ st : State,
    (processList st l).length ≤ l.length + stateRank st := by
  induction l with
  | nil => intro st; simp [processList]
  | cons b rest ih =>
    intro st
    cases st with
    | Char =>
      by_cases hb : b = 47
      · subst hb
        simp only [processList, if_pos rfl]
        have := ih (State.PotentialLineComment (some 47))
        simp [stateRank] at this ⊢
        omega
      · simp only [processList, if_neg hb, List.length_cons]
        have := ih State.Char
        simp [stateRank] at this ⊢
        omega
    | PotentialLineComment fs =>
      by_cases hb : b = 47
      · subst hb
        simp only [processList, if_pos rfl]
        have := ih State.LineComment
        simp [stateRank] at this ⊢
        omega
      · cases fs with
        | none => simp [processList, hb, stateRank]
        | some c =>
          simp only [processList, if_neg hb, List.length_cons]
          have := ih State.Char
          simp [stateRank] at this ⊢
          omega
    | LineComment =>
      by_cases hb : b = 10
      · subst hb
        simp only [processList, if_pos rfl, List.length_cons]
        have := ih State.Char
        simp [stateRank] at this ⊢
        omega
      · simp only [processList, if_neg hb]
        have := ih State.LineComment
        simp [stateRank] at this ⊢
        omega

theorem processList_newline_filter (l : List Nat) :
    ((processList State.Char l).filter (fun b => b == 10) =
      l.filter (fun b => b == 10)) ∧
    ((processList State.LineComment l).filter (fun b => b == 10) =
      l.filter (fun b => b == 10)) ∧
    ((processList (State.PotentialLineComment (some 47)) l).filter (fun b => b == 10) =
      l.filter (fun b => b == 10)) := by
  induction l with
  | nil => exact ⟨rfl, rfl, rfl⟩
  | cons b rest ih =>
    refine ⟨?_, ?_, ?_⟩
    · by_cases hb : b = 47
      · subst hb
        rw [processList_char_slash, ih.2.2, List.filter_cons]
        simp
      · rw [processList_char_other _ _ hb, List.filter_cons, List.filter_cons, ih.1]
    · by_cases hb : b = 10
      · subst hb
        rw [processList_lc_nl, List.filter_cons, List.filter_cons, ih.1]
      · rw [processList_lc_other _ _ hb, ih.2.1, List.filter_cons]
        simp [hb]
    · by_cases hb : b = 47
      · subst hb
        rw [processList_pending_slash, ih.2.1, List.filter_cons]
        simp
      · rw [processList_pending_other _ _ _ hb, List.filter_cons, List.filter_cons,
          List.filter_cons, ih.1]
        simp

/-- Shape of every output of the filter: no two adjacent `/` bytes and no
trailing `/` byte. -/
def goodOutput : List Nat → Bool
  | [] => true
  | [b] => decide (b ≠ 47)
  | 47 :: 47 :: _ => false
  | _ :: rest => goodOutput rest

theorem good_cons (b : Nat) (l : List Nat) (hb : b ≠ 47)
    (hl : goodOutput l = true) : goodOutput (b :: l) = true := by
  cases l with
  | nil => simp [goodOutput, hb]
  | cons c rest => simp [goodOutput, hb]; exact hl

theorem good_cons47 (c : Nat) (l : List Nat) (hc : c ≠ 47)
    (hl : goodOutput (c :: l) = true) : goodOutput (47 :: c :: l) = true := by
  simp [goodOutput, hc]
  exact hl

theorem good_tail (b : Nat) (l : List Nat) (h : goodOutput (b :: l) = true) :
    goodOutput l = true := by
  cases l with
  | nil => rfl
  | cons c rest =>
    by_cases hb : b = 47
    · subst hb
      by_cases hc : c = 47
      · subst hc; simp [goodOutput] at h
      · simp [goodOutput, hc] at h; exact h
    · simp [goodOutput, hb] at h; exact h

theorem good_head47 (c : Nat) (l : List Nat)
    (h : goodOutput (47 :: c :: l) = true) : c ≠ 47 := by
  intro hc
  subst hc
  simp [goodOutput] at h

theorem processList_good (l : List Nat) :
    goodOutput (processList State.Char l) = true ∧
    goodOutput (processList State.LineComment l) = true ∧
    goodOutput (processList (State.PotentialLineComment (some 47)) l) = true := by
  induction l with
  | nil => exact ⟨rfl, rfl, rfl⟩
  | cons b rest ih =>
    refine ⟨?_, ?_, ?_⟩
    · by_cases hb : b = 47
      · subst hb
        rw [processList_char_slash]
        exact ih.2.2
      · rw [processList_char_other _ _ hb]
        exact good_cons _ _ hb ih.1
    · by_cases hb : b = 10
      · subst hb
        rw [processList_lc_nl]
        exact good_cons _ _ (by omega) ih.1
      · rw [processList_lc_other _ _ hb]
        exact ih.2.1
    · by_cases hb : b = 47
      · subst hb
        rw [processList_pending_slash]
        exact ih.2.1
      · rw [processList_pending_other _ _ _ hb]
        exact good_cons47 _ _ hb (good_cons _ _ hb ih.1)

theorem good_id (n : Nat) : ∀ l : List Nat, l.length ≤ n →
    goodOutput l = true → processList State.Char l = l := by
  induction n with
  | zero =>
    intro l hl _
    cases l with
    | nil => rfl
    | cons b rest => simp at hl
  | succ n ih =>
    intro l hl hg
    cases l with
    | nil => rfl
    | cons b rest =>
      by_cases hb : b = 47
      · subst hb
        cases rest with
        | nil => simp [goodOutput] at hg
        | cons c r =>
          have hc : c ≠ 47 := good_head47 _ _ hg
          rw [processList_char_slash, processList_pending_other _ _ _ hc]
          have hr : processList State.Char r = r := by
            apply ih r (by simp at hl; omega)
            exact good_tail _ _ (good_tail _ _ hg)
          rw [hr]
      · rw [processList_char_other _ _ hb]
        have hr : processList State.Char rest = rest := by
          apply ih rest (by simp at hl; omega)
          exact good_tail _ _ hg
        rw [hr]

/-- State of the machine after consuming a list of bytes, mirroring the
state transitions of `processList`. -/
def finalState : State → List Nat → State
  | st, [] => st
  | State.Char, b :: rest =>
    if b = 47 then finalState (State.PotentialLineComment (some b)) rest
    else finalState State.Char rest
  | State.PotentialLineComment _, b :: rest =>
    if b = 47 then finalState State.LineComment rest
    else finalState State.Char rest
  | State.LineComment, b :: rest =>
    if b = 10 then finalState State.Char rest
    else finalState State.LineComment rest

/-- States whose pending-slash slot, if any, is occupied. -/
def heldOk : State → Bool
  | State.PotentialLineComment none => false
  | _ => true

theorem processList_nil_eq (st : State) : processList st [] = [] := by
  cases st <;> rfl

theorem processList_append (l1 : List Nat) : ∀ (st : State) (l2 : List Nat),
    heldOk st = true →
    processList st (l1 ++ l2) = processList st l1 ++ processList (finalState st l1) l2 := by
  induction l1 with
  | nil =>
    intro st l2 _
    rw [List.nil_append, processList_nil_eq, List.nil_append]
    cases st <;> rfl
  | cons b r ih =>
    intro st l2 hok
    cases st with
    | Char =>
      by_cases hb : b = 47
      · subst hb
        rw [List.cons_append, processList_char_slash, processList_char_slash,
          ih _ _ (by rfl)]
        simp [finalState]
      · rw [List.cons_append, processList_char_other _ _ hb, processList_char_other _ _ hb,
          ih _ _ (by rfl)]
        simp [finalState, hb]
    | PotentialLineComment fs =>
      by_cases hb : b = 47
      · subst hb
        rw [List.cons_append, processList_pending_slash, processList_pending_slash,
          ih _ _ (by rfl)]
        simp [finalState]
      · cases fs with
        | none => simp [heldOk] at hok
        | some c =>
          rw [List.cons_append, processList_pending_other _ _ _ hb,
            processList_pending_other _ _ _ hb, ih _ _ (by rfl)]
          simp [finalState, hb]
    | LineComment =>
      by_cases hb : b = 10
      · subst hb
        rw [List.cons_append, processList_lc_nl, processList_lc_nl, ih _ _ (by rfl)]
        simp [finalState]
      · rw [List.cons_append, processList_lc_other _ _ hb, processList_lc_other _ _ hb,
          ih _ _ (by rfl)]
        simp [finalState, hb]

theorem lc_no_newline (l : List Nat) (h : ∀ b ∈ l, b ≠ 10) :
    processList State.LineComment l = [] := by
  induction l with
  | nil => rfl
  | cons b rest ih =>
    have hb : b ≠ 10 := h b (List.mem_cons_self b rest)
    rw [processList_lc_other _ _ hb]
    exact ih fun c hc => h c (List.mem_cons_of_mem b hc)

theorem comment_opener_no_output (l2 : List Nat) (h : ∀ b ∈ l2, b ≠ 10) (st : State) :
    processList st (47 :: 47 :: l2) = [] := by
  have h47 : (47 : Nat) ≠ 10 := by omega
  cases st with
  | Char =>
    rw [processList_char_slash, processList_pending_slash, lc_no_newline _ h]
  | PotentialLineComment fs =>
    rw [processList_pending_slash, processList_lc_other _ _ h47, lc_no_newline _ h]
  | LineComment =>
    rw [processList_lc_other _ _ h47, processList_lc_other _ _ h47, lc_no_newline _ h]

/-- Number of iterations of the internal `loop` performed by one call of
`next` (each iteration evaluates `buffer.take().or_else(...)` once). -/
def ExcludingComments.nextSteps (s : ExcludingComments) : Nat :=
  match h : s.nextByte with
  | none => 1
  | some (b, s1) =>
    match s1.state with
    | State.Char =>
      if b = 47 then
        1 + ExcludingComments.nextSteps ⟨State.PotentialLineComment (some b), s1.buffer, s1.iter⟩
      else 1
    | State.PotentialLineComment _ =>
      if b = 47 then
        1 + ExcludingComments.nextSteps ⟨State.LineComment, s1.buffer, s1.iter⟩
      else 1
    | State.LineComment =>
      if b = 10 then 1
      else 1 + ExcludingComments.nextSteps s1
termination_by s.size
decreasing_by
  all_goals
    have h2 := nextByte_size _ _ _ h
    simp [ExcludingComments.size] at h2 ⊢
    omega

theorem nextSteps_of_none (s : ExcludingComments) (h : s.nextByte = none) :
    s.nextSteps = 1 := by
  rw [ExcludingComments.nextSteps]
  split
  · rfl
  · next b s1 heq => rw [h] at heq; cases heq

theorem nextSteps_of_char (s : ExcludingComments) (b : Nat) (s1 : ExcludingComments)
    (h : s.nextByte = some (b, s1)) (hst : s1.state = State.Char) :
    s.nextSteps = if b = 47 then
        1 + ExcludingComments.nextSteps ⟨State.PotentialLineComment (some b), s1.buffer, s1.iter⟩
      else 1 := by
  rw [ExcludingComments.nextSteps]
  split
  · next heq => rw [h] at heq; cases heq
  · next b' s1' heq =>
      rw [h] at heq
      cases heq
      rw [hst]

theorem nextSteps_of_pending (s : ExcludingComments) (b : Nat) (s1 : ExcludingComments)
    (fs : Option Nat) (h : s.nextByte = some (b, s1))
    (hst : s1.state = State.PotentialLineComment fs) :
    s.nextSteps = if b = 47 then
        1 + ExcludingComments.nextSteps ⟨State.LineComment, s1.buffer, s1.iter⟩
      else 1 := by
  rw [ExcludingComments.nextSteps]
  split
  · next heq => rw [h] at heq; cases heq
  · next b' s1' heq =>
      rw [h] at heq
      cases heq
      rw [hst]

theorem nextSteps_of_lc (s : ExcludingComments) (b : Nat) (s1 : ExcludingComments)
    (h : s.nextByte = some (b, s1)) (hst : s1.state = State.LineComment) :
    s.nextSteps = if b = 10 then 1 else 1 + ExcludingComments.nextSteps s1 := by
  rw [ExcludingComments.nextSteps]
  split
  · next heq => rw [h] at heq; cases heq
  · next b' s1' heq =>
      rw [h] at heq
      cases heq
      rw [hst]

theorem nextSteps_le (s : ExcludingComments) : s.nextSteps ≤ s.size + 1 := by
  induction s using ExcludingComments.next.induct with
  | case1 x hnb =>
    rw [nextSteps_of_none _ hnb]
    omega
  | case2 x s1 hst hnb ih =>
    rw [nextSteps_of_char _ _ _ hnb hst]
    simp only [if_pos rfl]
    have h1 := nextByte_size _ _ _ hnb
    simp [ExcludingComments.size] at h1 ih ⊢
    omega
  | case3 x b0 s1 hnb hst hne =>
    rw [nextSteps_of_char _ _ _ hnb hst]
    simp [hne]
  | case4 x s1 fs hst hnb ih =>
    rw [nextSteps_of_pending _ _ _ _ hnb hst]
    simp only [if_pos rfl]
    have h1 := nextByte_size _ _ _ hnb
    simp [ExcludingComments.size] at h1 ih ⊢
    omega
  | case5 x b0 s1 hnb fs hst hne =>
    rw [nextSteps_of_pending _ _ _ _ hnb hst]
    simp [hne]
  | case6 x s1 hst hnb =>
    rw [nextSteps_of_lc _ _ _ hnb hst]
    simp
  | case7 x b0 s1 hnb hst hne ih =>
    rw [nextSteps_of_lc _ _ _ hnb hst]
    simp only [if_neg hne]
    have h1 := nextByte_size _ _ _ hnb
    simp [ExcludingComments.size] at h1 ih ⊢
    omega

theorem nextSteps_some (s : ExcludingComments) (b : Nat) (s' : ExcludingComments)
    (h : s.next = (some b, s')) :
    s.nextSteps + (2 * s'.size + stateRank s'.state) ≤
      2 * s.size + stateRank s.state := by
  induction s using ExcludingComments.next.induct generalizing b s' with
  | case1 x hnb =>
    rw [next_of_none _ hnb] at h
    simp [Prod.ext_iff] at h
  | case2 x s1 hst hnb ih =>
    rw [next_of_char _ _ _ hnb hst] at h
    simp at h
    rw [nextSteps_of_char _ _ _ hnb hst]
    simp only [if_pos rfl]
    have h1 := nextByte_size _ _ _ hnb
    have h2 := nextByte_buffer _ _ _ hnb
    have h3 := ih _ _ h
    simp [ExcludingComments.size, h2, stateRank] at h3 h1 ⊢
    omega
  | case3 x b0 s1 hnb hst hne =>
    rw [next_of_char _ _ _ hnb hst] at h
    simp [hne, Prod.ext_iff] at h
    cases h.1
    cases h.2
    rw [nextSteps_of_char _ _ _ hnb hst]
    simp only [if_neg hne]
    have h1 := nextByte_size _ _ _ hnb
    simp [hst, stateRank]
    omega
  | case4 x s1 fs hst hnb ih =>
    rw [next_of_pending _ _ _ _ hnb hst] at h
    simp at h
    rw [nextSteps_of_pending _ _ _ _ hnb hst]
    simp only [if_pos rfl]
    have h1 := nextByte_size _ _ _ hnb
    have h2 := nextByte_buffer _ _ _ hnb
    have h3 := ih _ _ h
    simp [ExcludingComments.size, h2, stateRank] at h3 h1 ⊢
    omega
  | case5 x b0 s1 hnb fs hst hne =>
    rw [next_of_pending _ _ _ _ hnb hst] at h
    simp [hne, Prod.ext_iff] at h
    cases h.2
    rw [nextSteps_of_pending _ _ _ _ hnb hst]
    simp only [if_neg hne]
    have h1 := nextByte_size _ _ _ hnb
    have h2 := nextByte_buffer _ _ _ hnb
    have h4 := nextByte_state _ _ _ hnb
    rw [hst] at h4
    simp [ExcludingComments.size, h2, stateRank, ← h4] at h1 ⊢
    omega
  | case6 x s1 hst hnb =>
    rw [next_of_lc _ _ _ hnb hst] at h
    simp [Prod.ext_iff] at h
    cases h.1
    cases h.2
    rw [nextSteps_of_lc _ _ _ hnb hst]
    simp only [if_pos rfl]
    have h1 := nextByte_size _ _ _ hnb
    have h2 := nextByte_buffer _ _ _ hnb
    simp [ExcludingComments.size, stateRank, h2] at h1 ⊢
    omega
  | case7 x b0 s1 hnb hst hne ih =>
    rw [next_of_lc _ _ _ hnb hst] at h
    simp [hne] at h
    rw [nextSteps_of_lc _ _ _ hnb hst]
    simp only [if_neg hne]
    have h1 := nextByte_size _ _ _ hnb
    have h3 := ih _ _ h
    simp [hst, stateRank] at h3 ⊢
    omega

/-- Total number of internal loop iterations over all pulls until the end
signal is produced. -/
def ExcludingComments.runSteps (s : ExcludingComments) : Nat :=
  match h : s.next with
  | (none, _) => s.nextSteps
  | (some _, s') => s.nextSteps + ExcludingComments.runSteps s'
termination_by 2 * s.size + stateRank s.state
decreasing_by exact next_some_size _ _ _ h

theorem runSteps_of_none (s t : ExcludingComments) (h : s.next = (none, t)) :
    s.runSteps = s.nextSteps := by
  rw [ExcludingComments.runSteps]
  split
  · rfl
  · next b s' heq => rw [h] at heq; cases heq

theorem runSteps_of_some (s : ExcludingComments) (b : Nat) (s' : ExcludingComments)
    (h : s.next = (some b, s')) : s.runSteps = s.nextSteps + s'.runSteps := by
  rw [ExcludingComments.runSteps]
  split
  · next heq => rw [h] at heq; cases heq
  · next b' t heq =>
      rw [h] at heq
      cases heq
      rfl

theorem runSteps_le (s : ExcludingComments) :
    s.runSteps ≤ 2 * s.size + stateRank s.state + 1 := by
  induction s using ExcludingComments.runSteps.induct with
  | case1 x t heq =>
    rw [runSteps_of_none _ _ heq]
    have := nextSteps_le x
    omega
  | case2 x b s' heq ih =>
    rw [runSteps_of_some _ _ _ heq]
    have := nextSteps_some _ _ _ heq
    omega

/-- Configurations reachable at pull boundaries, starting from the
constructed decorator over the source `l` and stepping by whole pulls. -/
inductive Reachable (l : List Nat) : ExcludingComments → Prop
  | init : Reachable l (new_from_iter l)
  | step (s : ExcludingComments) : Reachable l s → Reachable l s.next.2

/-- One pull preserves the pending-slash invariant: the held value of a
`PotentialLineComment` state is always `some 47`. -/
theorem next_held (s : ExcludingComments)
    (hs : ∀ fs, s.state = State.PotentialLineComment fs → fs = some 47) :
    ∀ fs, s.next.2.state = State.PotentialLineComment fs → fs = some 47 := by
  induction s using ExcludingComments.next.induct with
  | case1 x hnb =>
    rw [next_of_none _ hnb]
    exact hs
  | case2 x s1 hst hnb ih =>
    rw [next_of_char _ _ _ hnb hst]
    simp only [if_pos rfl]
    exact ih fun fs hfs => by
      simp at hfs
      exact hfs.symm
  | case3 x b0 s1 hnb hst hne =>
    rw [next_of_char _ _ _ hnb hst]
    simp only [if_neg hne]
    intro fs hfs
    rw [hst] at hfs
    cases hfs
  | case4 x s1 fs0 hst hnb ih =>
    rw [next_of_pending _ _ _ _ hnb hst]
    simp only [if_pos rfl]
    exact ih fun fs hfs => by simp at hfs
  | case5 x b0 s1 hnb fs0 hst hne =>
    rw [next_of_pending _ _ _ _ hnb hst]
    simp only [if_neg hne]
    intro fs hfs
    cases hfs
  | case6 x s1 hst hnb =>
    rw [next_of_lc _ _ _ hnb hst]
    simp only [if_pos rfl]
    intro fs hfs
    cases hfs
  | case7 x b0 s1 hnb hst hne ih =>
    rw [next_of_lc _ _ _ hnb hst]
    simp only [if_neg hne]
    exact ih fun fs hfs => by
      rw [hst] at hfs
      cases hfs

theorem reachable_held (l : List Nat) (s : ExcludingComments) (hr : Reachable l s) :
    ∀ fs, s.state = State.PotentialLineComment fs → fs = some 47 := by
  induction hr with
  | init =>
    intro fs hfs
    cases hfs
  | step t _ ih => exact next_held t ih

/-- After any pull, an occupied replay buffer implies state `Char` and a
non-slash buffered byte. -/
theorem next_buffer_inv (s : ExcludingComments) (b : Nat)
    (h : s.next.2.buffer = some b) : s.next.2.state = State.Char ∧ b ≠ 47 := by
  induction s using ExcludingComments.next.induct generalizing b with
  | case1 x hnb =>
    rw [next_of_none _ hnb] at h ⊢
    exfalso
    cases hx : x.buffer with
    | none => rw [hx] at h; cases h
    | some c =>
      have : x.nextByte = some (c, ⟨x.state, none, x.iter⟩) := by
        simp [ExcludingComments.nextByte, hx]
      rw [this] at hnb
      cases hnb
  | case2 x s1 hst hnb ih =>
    rw [next_of_char _ _ _ hnb hst] at h ⊢
    simp only [if_pos rfl] at h ⊢
    exact ih _ h
  | case3 x b0 s1 hnb hst hne =>
    rw [next_of_char _ _ _ hnb hst] at h ⊢
    simp only [if_neg hne] at h ⊢
    have h2 := nextByte_buffer _ _ _ hnb
    rw [h2] at h
    cases h
  | case4 x s1 fs hst hnb ih =>
    rw [next_of_pending _ _ _ _ hnb hst] at h ⊢
    simp only [if_pos rfl] at h ⊢
    exact ih _ h
  | case5 x b0 s1 hnb fs hst hne =>
    rw [next_of_pending _ _ _ _ hnb hst] at h ⊢
    simp only [if_neg hne] at h ⊢
    simp at h
    subst h
    simp [hne]
  | case6 x s1 hst hnb =>
    rw [next_of_lc _ _ _ hnb hst] at h ⊢
    simp only [if_pos rfl] at h ⊢
    have h2 := nextByte_buffer _ _ _ hnb
    simp [h2] at h
  | case7 x b0 s1 hnb hst hne ih =>
    rw [next_of_lc _ _ _ hnb hst] at h ⊢
    simp only [if_neg hne] at h ⊢
    exact ih _ h

/-- C1: the claim that pulling until end-of-sequence yields exactly the
input with every maximal `//`-to-newline run removed fails on the code: on
the input consisting of the single byte `/`, removing the comment runs (of
which there are none) keeps the slash, but the iterator drops it, because
`next` returns `None` when the source is exhausted in the
`PotentialLineComment` state without emitting the held slash. -/
theorem lone_slash_code_spec_divergence :
    exclude_comments [47] = [] ∧ specRemoveComments [47] = [47] := by
  constructor
  · rw [exclude_comments_eq]
    decide
  · decide

/-- C2: the claim that an input ending in a single unmatched `/` still has
that `/` emitted before the end signal fails on the code: filtering
`"a/"` (bytes `[97, 47]`) yields `"a"` (bytes `[97]`), not `"a/"` — the
held slash is dropped at end of input. -/
theorem trailing_slash_dropped :
    exclude_comments [97, 47] = [97] ∧ ([97] : List Nat) ≠ [97, 47] := by
  constructor
  · rw [exclude_comments_eq]
    decide
  · decide

/-- C3: on every input containing no `/` byte the filter is the identity:
the machine never leaves state `Char` and re-emits every byte. -/
theorem slash_free_identity (l : List Nat) (h : ∀ b ∈ l, b ≠ 47) :
    exclude_comments l = l := by
  rw [exclude_comments_eq]
  exact processList_no_slash l h

theorem slash_free_identity_witness :
    exclude_comments [97, 98, 10, 99] = [97, 98, 10, 99] :=
  slash_free_identity [97, 98, 10, 99] (by decide)

/-- C4: the whole-sequence filter is idempotent on every input: outputs
never contain `//` and never end in `/`, and the filter is the identity on
such sequences. -/
theorem filter_idempotent (l : List Nat) :
    exclude_comments (exclude_comments l) = exclude_comments l := by
  simp only [exclude_comments_eq]
  exact good_id (processList State.Char l).length (processList State.Char l)
    le_rfl (processList_good l).1

/-- C5: the output of the filter is never longer than its input. -/
theorem output_length_le (l : List Nat) :
    (exclude_comments l).length ≤ l.length := by
  rw [exclude_comments_eq]
  have := processList_length l State.Char
  simpa [stateRank] using this

/-- C6: the subsequence of newline bytes is preserved exactly: every
newline of the input appears in the output in the same relative order,
and the newline counts agree. -/
theorem newlines_preserved (l : List Nat) :
    (exclude_comments l).filter (fun b => b == 10) = l.filter (fun b => b == 10) := by
  rw [exclude_comments_eq]
  exact (processList_newline_filter l).1

/-- C7: after a `//` opener with no later newline, every byte from the
opener through end-of-input is discarded and no newline is synthesized:
the output equals the output for the prefix before the opener alone, and
filtering `"a//"` yields `"a"`. -/
theorem comment_to_eof_discarded (l1 l2 : List Nat) (h : ∀ b ∈ l2, b ≠ 10) :
    exclude_comments (l1 ++ 47 :: 47 :: l2) = exclude_comments l1 ∧
    exclude_comments [97, 47, 47] = [97] := by
  constructor
  · rw [exclude_comments_eq, exclude_comments_eq,
      processList_append l1 State.Char _ rfl, comment_opener_no_output l2 h,
      List.append_nil]
  · rw [exclude_comments_eq]
    decide

theorem comment_to_eof_discarded_witness :
    (exclude_comments ([97] ++ 47 :: 47 :: [98, 99]) = exclude_comments [97]) ∧
    exclude_comments [97, 47, 47] = [97] :=
  comment_to_eof_discarded [97] [98, 99] (by decide)

/-- C8: every pull terminates after at most one internal loop iteration
per unconsumed byte (plus the final end-of-input check), and the total
work over all pulls is linear in the input length. -/
theorem pull_loop_terminates_linear :
    (∀ s : ExcludingComments, s.nextSteps ≤ s.size + 1) ∧
    (∀ l : List Nat, (new_from_iter l).runSteps ≤ 2 * l.length + 1) := by
  constructor
  · exact nextSteps_le
  · intro l
    have := runSteps_le (new_from_iter l)
    simpa [new_from_iter, ExcludingComments.size, stateRank] using this

/-- C9: in every configuration reachable at a pull boundary, a
`PotentialLineComment` state holds exactly `some 47`, the slash byte
consumed from the source. -/
theorem pending_state_holds_slash (l : List Nat) (s : ExcludingComments)
    (hr : Reachable l s) (fs : Option Nat)
    (hs : s.state = State.PotentialLineComment fs) : fs = some 47 :=
  reachable_held l s hr fs hs

theorem pending_state_holds_slash_witness : (some 47 : Option Nat) = some 47 :=
  pending_state_holds_slash [47] _ (Reachable.step _ Reachable.init) (some 47)
    (by simp [new_from_iter, ExcludingComments.next, ExcludingComments.nextByte])

/-- C10: whenever a pull returns, an occupied replay buffer implies state
`Char` with a non-slash buffered byte; and a pull with an occupied buffer
takes the buffered byte first, emptying the buffer without touching the
source. -/
theorem replay_buffer_invariant :
    (∀ (s : ExcludingComments) (b : Nat), s.next.2.buffer = some b →
      s.next.2.state = State.Char ∧ b ≠ 47) ∧
    (∀ (st : State) (b : Nat) (it : List Nat),
      ExcludingComments.nextByte ⟨st, some b, it⟩ = some (b, ⟨st, none, it⟩)) :=
  ⟨fun s b h => next_buffer_inv s b h, fun _ _ _ => rfl⟩

theorem replay_buffer_invariant_witness :
    (ExcludingComments.next ⟨State.Char, none, [47, 98]⟩).2.state = State.Char ∧
    (98 : Nat) ≠ 47 :=
  replay_buffer_invariant.1 ⟨State.Char, none, [47, 98]⟩ 98
    (by simp [ExcludingComments.next, ExcludingComments.nextByte])

end Comments
